import Mathlib

/-!
# Verification of the babel-filter streaming filter/reconciliation engine

Shallow embedding of the Rust sources of `Woozl/babel-filter`:

* `src/babel_filter/src/lib.rs` — the library version: filter-set construction
  with category exclusion (`buildFilterSet`, `has_excluded_category`), per-file
  streaming filtering with a depleting map (`processFile`, `runFilesLib`), the
  output-path override (`computeOutputName`), and the leftover reconciliation
  pass (`reconcileNode`, `reconcileAll`).
* `src/src/main.rs` — the binary version: a non-depleting set-membership filter
  (`processFileBin`).
* `src/src/file/writer.rs` — the line writer: `write_line` appends the raw line
  bytes followed by one newline (`renderLines`), and `Writer::new` creates
  (truncating) the file at the given path (`fsCreateWrite`).

JSON decoding (`serde_json::from_str`) and encoding (`serde_json::to_string`)
are kept abstract: decoders are parameters of type `String → Option _`
(with `none` standing for a parse error), and the overflow encoder is a total
parameter `BabelJson → String` (serialization of these concrete struct types
cannot fail in `serde_json`). A line read from a `Reader` is
`Except Unit String`: `.error ()` models an I/O read error, `.ok s` a line
with its terminator stripped.
-/

set_option autoImplicit false

namespace BabelFilter

/-- `enum OutputFormat` from `src/babel_filter/src/config.rs` (Plaintext | Gzipped),
the `--output-format` override. -/
inductive OutputFormat where
  | Plaintext
  | Gzipped
deriving DecidableEq, Repr

/-- `struct NodeListJson` (lib.rs lines 23–29): one decoded record of the
filter file. -/
structure NodeListJson where
  id : String
  name : String
  category : List String
  equivalent_identifiers : Option (List String)
deriving DecidableEq, Repr

/-- `struct BabelJson` (lib.rs lines 13–21): one decoded record of an
input (Babel) file. `usize` is modelled as `Nat`. -/
structure BabelJson where
  curie : String
  names : List String
  types : List String
  preferred_name : Option String
  shortest_name_length : Option Nat
  taxa : List String
deriving DecidableEq, Repr

/-- One line as produced by `Reader::lines()`: `.error ()` is a read error,
`.ok s` the line text. -/
abbrev Line := Except Unit String

/-- The `AHashMap<String, NodeListJson>` filter set, modelled as an
association list. Iteration order of the hash map is unspecified, so any
list order is a faithful choice; the operations below preserve the
one-entry-per-key invariant the hash map guarantees. -/
abbrev FilterSet := List (String × NodeListJson)

/-- Keys of the filter set (the identifiers currently present). -/
def FilterSet.keys (fs : FilterSet) : List String :=
  fs.map Prod.fst

/-- `HashMap::get`-style lookup: the value at a key, if present. -/
def FilterSet.lookup (k : String) (fs : FilterSet) : Option NodeListJson :=
  ((fs.find? fun p => decide (p.1 = k)).map Prod.snd)

/-- `filter_set.insert(id, node)` (lib.rs lines 64/69): a hash-map insert
overwrites any entry at the same key. Modelled as erasing the key then
appending, which keeps keys pairwise distinct. -/
def FilterSet.insert (k : String) (v : NodeListJson) (fs : FilterSet) : FilterSet :=
  (fs.filter fun p => decide (p.1 ≠ k)) ++ [(k, v)]

/-- `filter_set.remove(&curie)` (lib.rs line 120): returns the removed value
(if any) together with the map with that key gone. When the key is absent the
map is returned unchanged, as a hash-map `remove` leaves it. -/
def FilterSet.removeGet (k : String) (fs : FilterSet) :
    Option NodeListJson × FilterSet :=
  match FilterSet.lookup k fs with
  | some v => (some v, fs.filter fun p => decide (p.1 ≠ k))
  | none => (none, fs)

/-- `has_excluded_category` (lib.rs lines 186–201): true iff the exclusion
list is non-empty and some category tag equals some exclusion entry. -/
def has_excluded_category (set : List String) (exclude_set : List String) : Bool :=
  if exclude_set.isEmpty then false
  else set.any fun cat => exclude_set.any fun ex_cat => decide (cat = ex_cat)

/-- The filter-set building loop (lib.rs lines 52–80): read errors and decode
failures are reported and skipped; a decoded record whose category hits the
exclusion list is dropped and counted in `num_removed`; otherwise it is
inserted keyed by `id`, overwriting any earlier entry. The accumulating
state is `(filter_set, num_removed)`. -/
def buildFilterSet (decodeF : String → Option NodeListJson)
    (exclude_category : Option (List String)) :
    List Line → FilterSet → Nat → FilterSet × Nat
  | [], fs, n => (fs, n)
  | Except.error _ :: rest, fs, n => buildFilterSet decodeF exclude_category rest fs n
  | Except.ok s :: rest, fs, n =>
    match decodeF s with
    | none => buildFilterSet decodeF exclude_category rest fs n
    | some node =>
      match exclude_category with
      | some exclude_cats =>
        if has_excluded_category node.category exclude_cats then
          buildFilterSet decodeF exclude_category rest fs (n + 1)
        else
          buildFilterSet decodeF exclude_category rest (FilterSet.insert node.id node fs) n
      | none =>
          buildFilterSet decodeF exclude_category rest (FilterSet.insert node.id node fs) n

/-- Result of processing one Babel input file (lib.rs lines 115–134):
the depleted filter set, the raw lines written to this file's output in
order, the `num_nodes` counter (incremented for every line, read errors
included), the `num_kept` counter, and the numbers of reported decode and
read errors (one `eprint` each in the source). -/
structure FileResult where
  fs : FilterSet
  output : List String
  numNodes : Nat
  numKept : Nat
  numDecodeErrors : Nat
  numReadErrors : Nat
deriving DecidableEq, Repr

/-- The per-file processing loop (lib.rs lines 115–134). For each line:
`num_nodes` is incremented; a read error is reported and skipped; a decode
failure is reported and skipped; a decoded record whose `curie` is removed
from the filter set (i.e. was present) is kept: the *original raw line* is
written and `num_kept` incremented; otherwise the line is dropped silently. -/
def processFile (decodeB : String → Option BabelJson) (fs : FilterSet) :
    List Line → FileResult
  | [] => ⟨fs, [], 0, 0, 0, 0⟩
  | Except.error _ :: rest =>
    let r := processFile decodeB fs rest
    { r with numNodes := r.numNodes + 1, numReadErrors := r.numReadErrors + 1 }
  | Except.ok s :: rest =>
    match decodeB s with
    | none =>
      let r := processFile decodeB fs rest
      { r with numNodes := r.numNodes + 1, numDecodeErrors := r.numDecodeErrors + 1 }
    | some node =>
      match FilterSet.removeGet node.curie fs with
      | (some _, fs_next) =>
        let r := processFile decodeB fs_next rest
        { r with output := s :: r.output,
                 numNodes := r.numNodes + 1, numKept := r.numKept + 1 }
      | (none, _) =>
        let r := processFile decodeB fs rest
        { r with numNodes := r.numNodes + 1 }

/-- `splitLastDot cs = some (stem, ext)` splits a file-name character list at
its LAST dot; `none` when there is no dot. Used to model `std::path`
extension handling on the final path component. -/
def splitLastDot : List Char → Option (List Char × List Char)
  | [] => none
  | c :: cs =>
    match splitLastDot cs with
    | some (st, ex) => some (c :: st, ex)
    | none => if c = '.' then some ([], cs) else none

/-- Rust `Path::extension()` on a file name: the portion after the final dot,
except that a name with no dot, or a name beginning with a dot and containing
no other dot (a hidden file like `.gz`), has no extension. -/
def fileExtension (name : String) : Option String :=
  match splitLastDot name.toList with
  | none => none
  | some (stem, ext) => if stem.isEmpty then none else some (String.mk ext)

/-- Rust `Path::file_stem()` on a file name: the portion before the final
dot, or the whole name when it has no extension. -/
def fileStem (name : String) : String :=
  match splitLastDot name.toList with
  | none => name
  | some (stem, _) => if stem.isEmpty then name else String.mk stem

/-- Rust `Path::with_extension(ext)` on a file name: the stem with the new
extension appended (bare stem when `ext` is empty) — it REPLACES any existing
extension rather than appending after it. -/
def withExtension (name ext : String) : String :=
  if ext.isEmpty then fileStem name else fileStem name ++ "." ++ ext

/-- The output-format override on the computed output file name
(lib.rs lines 96–108): `Plaintext` drops a `gz` extension,
`Gzipped` replaces the extension with `gz` when it is not already `gz`,
`none` leaves the name alone. `extension`/`with_extension` act only on the
final path component, so the model works on the file name. -/
def computeOutputName (output_format : Option OutputFormat) (name : String) : String :=
  match output_format with
  | some OutputFormat.Plaintext =>
    if fileExtension name = some "gz" then withExtension name "" else name
  | some OutputFormat.Gzipped =>
    if fileExtension name ≠ some "gz" then withExtension name "gz" else name
  | none => name

/-- The computed output path (lib.rs lines 90–108): the output directory
joined with the input file's base name, then the override applied. -/
def computeOutputPath (outDir : String) (output_format : Option OutputFormat)
    (name : String) : String :=
  outDir ++ "/" ++ computeOutputName output_format name

/-- The directory loop (lib.rs lines 82–148): the filter set is threaded
through the files in directory order; for each file the output path is
computed and the raw lines written to it are collected. -/
def runBabelFiles (decodeB : String → Option BabelJson)
    (output_format : Option OutputFormat) (outDir : String) :
    FilterSet → List (String × List Line) → FilterSet × List (String × List String)
  | fs, [] => (fs, [])
  | fs, f :: rest =>
    let r := processFile decodeB fs f.2
    let rr := runBabelFiles decodeB output_format outDir r.fs rest
    (rr.1, (computeOutputPath outDir output_format f.1, r.output) :: rr.2)

/-- `some rest` when the first argument is a prefix of the second, with
`rest` what follows the prefix; `none` otherwise. -/
def stripPrefixChars : List Char → List Char → Option (List Char)
  | [], rest => some rest
  | _ :: _, [] => none
  | p :: ps, c :: cs => if c = p then stripPrefixChars ps cs else none

/-- Replacement loop for Rust `str::replace` on character lists: scan left to
right, and at each position where the (non-empty) pattern matches, emit the
replacement and skip past the match (non-overlapping matches). The fuel is
the length of the scanned list, which bounds the number of steps. -/
def replaceFuel (pat repl : List Char) : Nat → List Char → List Char
  | _, [] => []
  | 0, cs => cs
  | n + 1, c :: cs =>
    match stripPrefixChars pat (c :: cs) with
    | some rest =>
      match pat with
      | [] => c :: replaceFuel pat repl n cs
      | _ :: _ => repl ++ replaceFuel pat repl n rest
    | none => c :: replaceFuel pat repl n cs

/-- Rust `s.replace(pat, repl)` as called at lib.rs line 160: every
non-overlapping occurrence of the non-empty pattern, scanned left to right,
is replaced. -/
def rustReplace (s pat repl : String) : String :=
  String.mk (replaceFuel pat.toList repl.toList s.toList.length s.toList)

/-- Conversion of one leftover filter entry to a Babel-shaped record
(lib.rs lines 155–170): `curie = id`, `names = [name]`, `types` = category
tags with every occurrence of `"biolink:"` removed, `preferred_name = name`,
`shortest_name_length = name.len()`, `taxa = []`. -/
def reconcileNode (curie : String) (node : NodeListJson) : BabelJson :=
  { curie := curie
    names := [node.name]
    types := node.category.map fun s => rustReplace s "biolink:" ""
    preferred_name := some node.name
    shortest_name_length := some node.name.utf8ByteSize
    taxa := [] }

/-- The reconciliation pass (lib.rs lines 155–176): every remaining filter
entry is converted and written to the overflow file, in the map's iteration
order. -/
def reconcileAll (fs : FilterSet) : List BabelJson :=
  fs.map fun p => reconcileNode p.1 p.2

/-- The fixed overflow path (lib.rs line 151): the output directory joined
with `NonBabelNodes.txt.gz` (the literal `./` component in the source is a
no-op path component). -/
def nonBabelNodesPath (outDir : String) : String :=
  outDir ++ "/NonBabelNodes.txt.gz"

/-- Result of a full library run: the exclusion count, the per-file outputs
as (path, raw lines written), the filter set left after all files, and the
records written to the overflow file. -/
structure RunOut where
  numRemoved : Nat
  outputs : List (String × List String)
  finalSet : FilterSet
  overflowRecords : List BabelJson
deriving Repr

/-- `run` (lib.rs lines 31–184) restricted to its data flow: build the filter
set from the filter file, stream every Babel file against it, then reconcile
the leftovers into overflow records. -/
def run (decodeF : String → Option NodeListJson) (decodeB : String → Option BabelJson)
    (exclude_category : Option (List String)) (output_format : Option OutputFormat)
    (outDir : String) (filterLines : List Line)
    (babelFiles : List (String × List Line)) : RunOut :=
  let built := buildFilterSet decodeF exclude_category filterLines [] 0
  let proc := runBabelFiles decodeB output_format outDir built.1 babelFiles
  { numRemoved := built.2
    outputs := proc.2
    finalSet := proc.1
    overflowRecords := reconcileAll proc.1 }

/-- `Writer::write_line` (writer.rs lines 36–40) appends the line's bytes and
then exactly one `\n`; a file's content after a sequence of `write_line`
calls is this left fold starting from the empty (freshly created) file. -/
def renderLines (lines : List String) : String :=
  lines.foldl (fun acc s => acc ++ s ++ "\n") ""

/-- A flat model of the output directory: a list of (path, content) files. -/
abbrev FileStore := List (String × String)

/-- `Writer::new` + the writes through it: `File::create` (writer.rs line 22)
truncates any existing file at the path, so writing `content` at `path`
replaces whatever was there. -/
def fsCreateWrite (st : FileStore) (path content : String) : FileStore :=
  (st.filter fun p => decide (p.1 ≠ path)) ++ [(path, content)]

/-- Content of the file at `path`, if present. -/
def fsLookup (path : String) (st : FileStore) : Option String :=
  (st.find? fun p => decide (p.1 = path)).map Prod.snd

/-- The files a run writes, in the order the program creates them: one per
Babel input file, then the overflow file `NonBabelNodes.txt.gz` — the latter
created unconditionally (lib.rs lines 150–153), before the leftover loop
runs, hence present (possibly empty) even when nothing is left to reconcile.
`encodeB` models `serde_json::to_string` on the synthesized records. -/
def producedFiles (encodeB : BabelJson → String) (outDir : String) (r : RunOut) :
    List (String × String) :=
  (r.outputs.map fun p => (p.1, renderLines p.2))
    ++ [(nonBabelNodesPath outDir, renderLines (r.overflowRecords.map encodeB))]

/-- Applying every file write of a run to a pre-existing store, in program
order. -/
def applyRun (st : FileStore) (files : List (String × String)) : FileStore :=
  files.foldl (fun acc pc => fsCreateWrite acc pc.1 pc.2) st

/-- The raw text of the successfully read lines, in order. -/
def okLines (lines : List Line) : List String :=
  lines.filterMap fun l =>
    match l with
    | Except.ok s => some s
    | Except.error _ => none

/-- The curies of the successfully decoded lines, in order. -/
def decodedCuries (decodeB : String → Option BabelJson) (lines : List Line) :
    List String :=
  lines.filterMap fun l =>
    match l with
    | Except.error _ => none
    | Except.ok s => (decodeB s).map BabelJson.curie

/-- How many of the given output lines decode to a record with curie `i`. -/
def countCuried (decodeB : String → Option BabelJson) (i : String)
    (out : List String) : Nat :=
  out.countP fun s => decide ((decodeB s).map BabelJson.curie = some i)

end BabelFilter

namespace BabelBin

open BabelFilter

/-- The per-file loop of the binary version (main.rs lines 78–88): read
errors and decode failures are skipped silently, and a decoded record whose
`curie` is in the (non-depleting) `AHashSet` has its raw line written. The
set is modelled by its element list. -/
def processFileBin (decodeB : String → Option BabelJson)
    (filter_set : List String) (lines : List Line) : List String :=
  lines.filterMap fun l =>
    match l with
    | Except.error _ => none
    | Except.ok s =>
      match decodeB s with
      | none => none
      | some node => if node.curie ∈ filter_set then some s else none

end BabelBin

namespace BabelFilter

/-! ## Basic facts about the filter-set operations -/

theorem mem_keys_iff {fs : FilterSet} {i : String} :
    i ∈ FilterSet.keys fs ↔ ∃ p ∈ fs, p.1 = i := by
  simp [FilterSet.keys]

theorem lookup_eq_none_iff {fs : FilterSet} {k : String} :
    FilterSet.lookup k fs = none ↔ k ∉ FilterSet.keys fs := by
  rw [FilterSet.lookup, Option.map_eq_none', List.find?_eq_none]
  constructor
  · intro h hk
    rcases mem_keys_iff.mp hk with ⟨p, hp, hpk⟩
    have := h p hp
    simp [hpk] at this
  · intro h p hp
    intro hdec
    exact h (mem_keys_iff.mpr ⟨p, hp, by simpa using hdec⟩)

theorem lookup_isSome_of_mem {fs : FilterSet} {k : String}
    (h : k ∈ FilterSet.keys fs) : (FilterSet.lookup k fs).isSome := by
  rcases Option.eq_none_or_eq_some (FilterSet.lookup k fs) with h0 | ⟨v, hv⟩
  · exact absurd h (lookup_eq_none_iff.mp h0)
  · simp [hv]

theorem keys_filterNe_not_mem (fs : FilterSet) (k : String) :
    k ∉ FilterSet.keys (fs.filter fun p => decide (p.1 ≠ k)) := by
  simp [FilterSet.keys, List.mem_filter]

theorem mem_keys_filterNe {fs : FilterSet} {k i : String} (h : i ≠ k) :
    i ∈ FilterSet.keys (fs.filter fun p => decide (p.1 ≠ k)) ↔
      i ∈ FilterSet.keys fs := by
  simp only [mem_keys_iff, List.mem_filter]
  constructor
  · rintro ⟨p, ⟨hp, _⟩, rfl⟩
    exact ⟨p, hp, rfl⟩
  · rintro ⟨p, hp, rfl⟩
    exact ⟨p, ⟨hp, by simpa using h⟩, rfl⟩

theorem nodup_keys_filterNe {fs : FilterSet} (k : String)
    (h : (FilterSet.keys fs).Nodup) :
    (FilterSet.keys (fs.filter fun p => decide (p.1 ≠ k))).Nodup := by
  have hsub : (fs.filter fun p => decide (p.1 ≠ k)).Sublist fs :=
    List.filter_sublist fs
  exact (hsub.map Prod.fst).nodup h

theorem nodup_keys_insert {fs : FilterSet} {k : String} (v : NodeListJson)
    (h : (FilterSet.keys fs).Nodup) :
    (FilterSet.keys (FilterSet.insert k v fs)).Nodup := by
  have h1 : (FilterSet.keys (fs.filter fun p => decide (p.1 ≠ k))).Nodup :=
    nodup_keys_filterNe k h
  have h2 := keys_filterNe_not_mem fs k
  simp only [FilterSet.insert, FilterSet.keys, List.map_append] at *
  refine List.Nodup.append h1 (by simp) ?_
  intro a ha hb
  simp only [List.map_cons, List.map_nil, List.mem_singleton] at hb
  subst hb
  exact h2 ha

theorem find?_filterNe (fs : FilterSet) (k i : String) (h : i ≠ k) :
    ((fs.filter fun p => decide (p.1 ≠ k)).find? fun p => decide (p.1 = i))
      = fs.find? fun p => decide (p.1 = i) := by
  induction fs with
  | nil => rfl
  | cons q qs ih =>
    rw [List.filter_cons]
    by_cases hq : q.1 = k
    · rw [if_neg (by simp [hq])]
      rw [ih, List.find?_cons_of_neg]
      simp only [decide_eq_true_eq]
      rw [hq]
      exact fun habs => h habs.symm
    · rw [if_pos (by simp [hq])]
      by_cases hqi : q.1 = i
      · rw [List.find?_cons_of_pos _ (by simpa using hqi),
          List.find?_cons_of_pos _ (by simpa using hqi)]
      · rw [List.find?_cons_of_neg _ (by simpa using hqi),
          List.find?_cons_of_neg _ (by simpa using hqi), ih]

theorem lookup_insert (fs : FilterSet) (k i : String) (v : NodeListJson) :
    FilterSet.lookup i (FilterSet.insert k v fs)
      = if k = i then some v else FilterSet.lookup i fs := by
  by_cases h : k = i
  · subst h
    simp only [FilterSet.insert, FilterSet.lookup, if_pos rfl]
    rw [List.find?_append]
    have hnone : ((fs.filter fun p => decide (p.1 ≠ k)).find?
        fun p => decide (p.1 = k)) = none := by
      rw [List.find?_eq_none]
      intro p hp
      rcases List.mem_filter.mp hp with ⟨_, hne⟩
      simp at hne ⊢
      exact hne
    simp [hnone]
  · simp only [FilterSet.insert, FilterSet.lookup, if_neg h]
    rw [List.find?_append, find?_filterNe fs k i (fun habs => h habs.symm)]
    have hsingle : (([(k, v)] : FilterSet).find? fun p => decide (p.1 = i)) = none := by
      rw [List.find?_cons_of_neg]
      · rfl
      · simpa using h
    rw [hsingle]
    cases fs.find? fun p => decide (p.1 = i) <;> rfl

end BabelFilter

namespace BabelFilter

/-! ## The Filter Set Builder -/

/-- The records the building loop inserts, in file order: successfully read,
successfully decoded, and not hit by the exclusion list. -/
def insertedRecords (decodeF : String → Option NodeListJson)
    (exclude_category : Option (List String)) (lines : List Line) :
    List NodeListJson :=
  lines.filterMap fun l =>
    match l with
    | Except.error _ => none
    | Except.ok s =>
      match decodeF s with
      | none => none
      | some node =>
        match exclude_category with
        | some cats =>
          if has_excluded_category node.category cats then none else some node
        | none => some node

/-- The records the building loop excludes (decoded, category hit). -/
def excludedRecords (decodeF : String → Option NodeListJson)
    (exclude_category : Option (List String)) (lines : List Line) :
    List NodeListJson :=
  lines.filterMap fun l =>
    match l with
    | Except.error _ => none
    | Except.ok s =>
      match decodeF s with
      | none => none
      | some node =>
        match exclude_category with
        | some cats =>
          if has_excluded_category node.category cats then some node else none
        | none => none

/-- The last record with the given id, folding left with an accumulator. -/
def lastWithId (i : String) : List NodeListJson → Option NodeListJson → Option NodeListJson
  | [], acc => acc
  | r :: rs, acc => lastWithId i rs (if r.id = i then some r else acc)

theorem lastWithId_ne_none_iff (i : String) (rs : List NodeListJson)
    (acc : Option NodeListJson) :
    lastWithId i rs acc ≠ none ↔ (∃ r ∈ rs, r.id = i) ∨ acc ≠ none := by
  induction rs generalizing acc with
  | nil => simp [lastWithId]
  | cons r rs ih =>
    rw [lastWithId, ih]
    by_cases hr : r.id = i
    · simp [hr]
    · simp only [if_neg hr, List.mem_cons]
      constructor
      · rintro (⟨q, hq, hqi⟩ | hacc)
        · exact Or.inl ⟨q, Or.inr hq, hqi⟩
        · exact Or.inr hacc
      · rintro (⟨q, hq | hq, hqi⟩ | hacc)
        · exact absurd (hq ▸ hqi) hr
        · exact Or.inl ⟨q, hq, hqi⟩
        · exact Or.inr hacc

theorem buildFilterSet_lookup (decodeF : String → Option NodeListJson)
    (exclude_category : Option (List String)) (lines : List Line)
    (fs : FilterSet) (n : Nat) (i : String) :
    FilterSet.lookup i (buildFilterSet decodeF exclude_category lines fs n).1
      = lastWithId i (insertedRecords decodeF exclude_category lines)
          (FilterSet.lookup i fs) := by
  induction lines generalizing fs n with
  | nil => rfl
  | cons l rest ih =>
    cases l with
    | error e =>
      rw [buildFilterSet, ih]
      rfl
    | ok s =>
      cases hdec : decodeF s with
      | none =>
        simp only [buildFilterSet, hdec]
        rw [ih]
        simp [insertedRecords, hdec, lastWithId]
      | some node =>
        cases hex : exclude_category with
        | none =>
          rw [hex] at ih
          simp only [buildFilterSet, hdec, hex]
          rw [ih, lookup_insert]
          simp only [insertedRecords, List.filterMap_cons, hdec, lastWithId]
        | some cats =>
          rw [hex] at ih
          by_cases hcat : has_excluded_category node.category cats = true
          · simp only [buildFilterSet, hdec, hex]
            rw [if_pos hcat, ih]
            simp [insertedRecords, hdec, hcat, lastWithId]
          · simp only [buildFilterSet, hdec, hex]
            rw [if_neg hcat, ih, lookup_insert]
            simp [insertedRecords, hdec, hcat, lastWithId]

theorem buildFilterSet_removed (decodeF : String → Option NodeListJson)
    (exclude_category : Option (List String)) (lines : List Line)
    (fs : FilterSet) (n : Nat) :
    (buildFilterSet decodeF exclude_category lines fs n).2
      = n + (excludedRecords decodeF exclude_category lines).length := by
  induction lines generalizing fs n with
  | nil => simp [buildFilterSet, excludedRecords]
  | cons l rest ih =>
    cases l with
    | error e =>
      rw [buildFilterSet, ih]
      rfl
    | ok s =>
      cases hdec : decodeF s with
      | none =>
        simp only [buildFilterSet, hdec]
        rw [ih]
        simp [excludedRecords, hdec]
      | some node =>
        cases hex : exclude_category with
        | none =>
          rw [hex] at ih
          simp only [buildFilterSet, hdec, hex]
          rw [ih]
          simp [excludedRecords, hdec]
        | some cats =>
          rw [hex] at ih
          by_cases hcat : has_excluded_category node.category cats = true
          · simp only [buildFilterSet, hdec, hex]
            rw [if_pos hcat, ih]
            simp only [excludedRecords, List.filterMap_cons, hdec, hcat,
              if_true, List.length_cons]
            omega
          · simp only [buildFilterSet, hdec, hex]
            rw [if_neg hcat, ih]
            simp [excludedRecords, hdec, hcat]

theorem buildFilterSet_nodup (decodeF : String → Option NodeListJson)
    (exclude_category : Option (List String)) (lines : List Line)
    (fs : FilterSet) (n : Nat) (h : (FilterSet.keys fs).Nodup) :
    (FilterSet.keys (buildFilterSet decodeF exclude_category lines fs n).1).Nodup := by
  induction lines generalizing fs n with
  | nil => exact h
  | cons l rest ih =>
    cases l with
    | error e => exact ih fs n h
    | ok s =>
      cases hdec : decodeF s with
      | none =>
        simp only [buildFilterSet, hdec]
        exact ih fs n h
      | some node =>
        cases hex : exclude_category with
        | none =>
          rw [hex] at ih
          simp only [buildFilterSet, hdec, hex]
          exact ih _ n (nodup_keys_insert node h)
        | some cats =>
          rw [hex] at ih
          by_cases hcat : has_excluded_category node.category cats = true
          · simp only [buildFilterSet, hdec, hex]
            rw [if_pos hcat]
            exact ih fs (n + 1) h
          · simp only [buildFilterSet, hdec, hex]
            rw [if_neg hcat]
            exact ih _ n (nodup_keys_insert node h)

theorem buildFilterSet_mem_keys (decodeF : String → Option NodeListJson)
    (exclude_category : Option (List String)) (lines : List Line) (i : String) :
    i ∈ FilterSet.keys (buildFilterSet decodeF exclude_category lines [] 0).1
      ↔ ∃ r ∈ insertedRecords decodeF exclude_category lines, r.id = i := by
  have hmem : i ∈ FilterSet.keys (buildFilterSet decodeF exclude_category lines [] 0).1
      ↔ FilterSet.lookup i (buildFilterSet decodeF exclude_category lines [] 0).1 ≠ none := by
    constructor
    · intro hk hnone
      exact lookup_eq_none_iff.mp hnone hk
    · intro hne
      by_contra hk
      exact hne (lookup_eq_none_iff.mpr hk)
  rw [hmem, buildFilterSet_lookup]
  have hbase : FilterSet.lookup i ([] : FilterSet) = none := rfl
  rw [hbase, lastWithId_ne_none_iff]
  simp

end BabelFilter

namespace BabelFilter

theorem getLast?_cons_match {α : Type} (a : α) (l : List α) :
    (a :: l).getLast? = match l.getLast? with
      | some x => some x
      | none => some a := by
  cases l with
  | nil => rfl
  | cons b bs =>
    rw [List.getLast?_cons_cons]
    cases h : (b :: bs).getLast? with
    | none => exact absurd (List.getLast?_eq_none_iff.mp h) (by simp)
    | some x => rfl

theorem lastWithId_eq_getLast?_filter (i : String) (rs : List NodeListJson)
    (acc : Option NodeListJson) :
    lastWithId i rs acc = match (rs.filter fun r => decide (r.id = i)).getLast? with
      | some r => some r
      | none => acc := by
  induction rs generalizing acc with
  | nil => rfl
  | cons r rest ih =>
    rw [lastWithId, ih, List.filter_cons]
    by_cases hr : r.id = i
    · have hb : decide (r.id = i) = true := by simpa using hr
      rw [if_pos hr, hb, if_pos rfl, getLast?_cons_match]
      cases (rest.filter fun q => decide (q.id = i)).getLast? <;> rfl
    · have hb : decide (r.id = i) = false := by simp [hr]
      rw [if_neg hr, hb, if_neg Bool.false_ne_true]

end BabelFilter

namespace BabelFilter

/-! ## Path-extension facts -/

theorem splitLastDot_append (cs st ex : List Char)
    (h : splitLastDot cs = some (st, ex)) : cs = st ++ '.' :: ex := by
  induction cs generalizing st ex with
  | nil => exact absurd h (by simp [splitLastDot])
  | cons c rest ih =>
    rw [splitLastDot] at h
    cases hrest : splitLastDot rest with
    | some p =>
      rw [hrest] at h
      cases p with
      | mk st0 ex0 =>
        simp only [Option.some.injEq, Prod.mk.injEq] at h
        rcases h with ⟨h1, h2⟩
        rw [← h1, ← h2]
        have := ih st0 ex0 hrest
        rw [List.cons_append, ← this]
    | none =>
      rw [hrest] at h
      by_cases hc : c = '.'
      · rw [if_pos hc] at h
        simp only [Option.some.injEq, Prod.mk.injEq] at h
        rcases h with ⟨h1, h2⟩
        rw [← h1, ← h2, hc]
        rfl
      · rw [if_neg hc] at h
        exact absurd h (by simp)

theorem string_data_ext {s t : String} (h : s.data = t.data) : s = t := by
  cases s
  cases t
  exact congrArg String.mk h

theorem string_append_data (s t : String) : (s ++ t).data = s.data ++ t.data := by
  cases s
  cases t
  rfl

theorem append_dot_gz (s : String) : s ++ "." ++ "gz" = s ++ ".gz" := by
  apply string_data_ext
  simp only [string_append_data, List.append_assoc]
  have hlit : (("." : String).data ++ ("gz" : String).data)
      = (".gz" : String).data := rfl
  rw [hlit]

theorem fileStem_append_extension (name e : String)
    (h : fileExtension name = some e) : fileStem name ++ "." ++ e = name := by
  cases hsplit : splitLastDot name.toList with
  | none =>
    rw [fileExtension, hsplit] at h
    exact absurd h (by simp)
  | some p =>
    cases p with
    | mk stem ext =>
      rw [fileExtension, hsplit] at h
      have h2 : (if stem.isEmpty = true then (none : Option String)
          else some (String.mk ext)) = some e := h
      by_cases hst : stem.isEmpty = true
      · rw [if_pos hst] at h2
        exact absurd h2 (by simp)
      · rw [if_neg hst] at h2
        simp only [Option.some.injEq] at h2
        have hname : name.toList = stem ++ '.' :: ext :=
          splitLastDot_append _ _ _ hsplit
        have hstem : fileStem name = String.mk stem := by
          rw [fileStem, hsplit]
          show (if stem.isEmpty = true then name else String.mk stem)
            = String.mk stem
          rw [if_neg hst]
        rw [hstem, ← h2]
        cases name with
        | mk data =>
          have hdata : data = stem ++ '.' :: ext := hname
          show String.mk (stem ++ ['.'] ++ ext) = String.mk data
          rw [hdata, List.append_assoc, List.singleton_append]

theorem fileStem_of_no_extension (name : String)
    (h : fileExtension name = none) : fileStem name = name := by
  cases hsplit : splitLastDot name.toList with
  | none =>
    rw [fileStem, hsplit]
  | some p =>
    cases p with
    | mk stem ext =>
      rw [fileExtension, hsplit] at h
      have h2 : (if stem.isEmpty = true then (none : Option String)
          else some (String.mk ext)) = none := h
      rw [fileStem, hsplit]
      show (if stem.isEmpty = true then name else String.mk stem) = name
      by_cases hst : stem.isEmpty = true
      · rw [if_pos hst]
      · rw [if_neg hst] at h2
        exact absurd h2 (by simp)

/-! ## Claim theorems: exclusion, reconciliation shape, path override,
last-seen wins -/

/-- Concrete filter-file decoder for the C2 counterexample: line `l1` decodes
to a record with id `X` and an excluded category, line `l2` to a record with
the same id `X` and a harmless category. -/
def c2decodeF : String → Option NodeListJson := fun s =>
  if s = "l1" then some ⟨"X", "n1", ["Bad"], none⟩
  else if s = "l2" then some ⟨"X", "n2", ["Good"], none⟩
  else none

/-- C2, counterexample. The claim says that a decoded filter record whose
category intersects the exclusion list has an id that NEVER appears in the
FilterSet, even when the filter file contains another record with the same id
and non-intersecting categories. On the code this fails: the record decoded
from line `l1` has id `X` and excluded category `Bad`, yet `X` is in the
FilterSet because the later record from `l2` (same id, category `Good`) is
inserted. -/
theorem c2_exclusion_counterexample :
    c2decodeF "l1" = some ⟨"X", "n1", ["Bad"], none⟩
    ∧ has_excluded_category ["Bad"] ["Bad"] = true
    ∧ "X" ∈ FilterSet.keys
        (buildFilterSet c2decodeF (some ["Bad"])
          [Except.ok "l1", Except.ok "l2"] [] 0).1 := by
  refine ⟨rfl, rfl, ?_⟩
  decide

/-- C3: the synthesized reconciliation record has `curie = id`,
`names = [record.name]`, `types` = the category tags with every occurrence of
the substring `biolink:` removed (Rust `str::replace`), `preferredName =
record.name`, `shortestNameLength` = the byte length of `record.name`, and
`taxa = []`; concretely, a leftover record with category
`["biolink:Gene", "biolink:NamedThing"]` and name `BRCA1` synthesizes
`types = ["Gene", "NamedThing"]`, `names = ["BRCA1"]`,
`preferredName = "BRCA1"`, `shortestNameLength = 5`, `taxa = []`. -/
theorem c3_reconciliation_shape :
    (∀ (i : String) (node : NodeListJson),
      (reconcileNode i node).curie = i
      ∧ (reconcileNode i node).names = [node.name]
      ∧ (reconcileNode i node).types
          = node.category.map (fun s => rustReplace s "biolink:" "")
      ∧ (reconcileNode i node).preferred_name = some node.name
      ∧ (reconcileNode i node).shortest_name_length = some node.name.utf8ByteSize
      ∧ (reconcileNode i node).taxa = [])
    ∧ reconcileNode "NCBIGene:672"
        ⟨"NCBIGene:672", "BRCA1", ["biolink:Gene", "biolink:NamedThing"], none⟩
      = ⟨"NCBIGene:672", ["BRCA1"], ["Gene", "NamedThing"],
          some "BRCA1", some 5, []⟩ := by
  refine ⟨fun i node => ⟨rfl, rfl, rfl, rfl, rfl, rfl⟩, ?_⟩
  decide

/-- C5, counterexample. The claim says `ForceGzip` APPENDS a `.gz` suffix
when the computed path does not already end in `.gz`. The code instead uses
Rust `Path::with_extension("gz")`, which REPLACES an existing extension: for
input file name `data.txt` the computed output path is `out/data.gz`, not
`out/data.txt.gz`. -/
theorem c5_override_counterexample :
    computeOutputPath "out" (some OutputFormat.Gzipped) "data.txt" = "out/data.gz"
    ∧ computeOutputPath "out" (some OutputFormat.Gzipped) "data.txt"
        ≠ "out/data.txt.gz" := by
  constructor
  · decide
  · decide

/-- C5, amended: under `ForcePlaintext`, when the computed path's final
component has Rust extension `gz` the trailing `.gz` is stripped (the result
restores the original name when `.gz` is re-appended), and the path is
unchanged otherwise; under `ForceGzip`, a path whose extension is already
`gz` is unchanged, a path with NO extension gets `.gz` appended, and a path
with a different extension has that extension REPLACED by `gz` (not
appended); under `Unspecified` the path is unchanged. -/
theorem c5_override_amended (outDir name : String) :
    (fileExtension name = some "gz" →
      computeOutputPath outDir (some OutputFormat.Plaintext) name ++ ".gz"
        = outDir ++ "/" ++ name)
    ∧ (fileExtension name ≠ some "gz" →
      computeOutputPath outDir (some OutputFormat.Plaintext) name
        = outDir ++ "/" ++ name)
    ∧ (fileExtension name = some "gz" →
      computeOutputPath outDir (some OutputFormat.Gzipped) name
        = outDir ++ "/" ++ name)
    ∧ (fileExtension name = none →
      computeOutputPath outDir (some OutputFormat.Gzipped) name
        = outDir ++ "/" ++ name ++ ".gz")
    ∧ (∀ e, fileExtension name = some e → e ≠ "gz" →
      computeOutputPath outDir (some OutputFormat.Gzipped) name
        = outDir ++ "/" ++ fileStem name ++ ".gz")
    ∧ computeOutputPath outDir none name = outDir ++ "/" ++ name := by
  have hgz : ¬ (("gz" : String).isEmpty = true) := by decide
  refine ⟨?_, ?_, ?_, ?_, ?_, rfl⟩
  · intro h
    have hW : withExtension name "" = fileStem name := by
      have hempty : ("" : String).isEmpty = true := by decide
      rw [withExtension, if_pos hempty]
    have hng : fileStem name ++ ".gz" = name := by
      rw [← append_dot_gz, fileStem_append_extension name "gz" h]
    rw [computeOutputPath, computeOutputName, if_pos h, hW,
      String.append_assoc, hng]
  · intro h
    rw [computeOutputPath, computeOutputName, if_neg h]
  · intro h
    rw [computeOutputPath, computeOutputName, if_neg (by simp [h])]
  · intro h
    rw [computeOutputPath, computeOutputName,
      if_pos (by simp [h]), withExtension, if_neg hgz,
      fileStem_of_no_extension name h, append_dot_gz,
      ← String.append_assoc]
  · intro e he hne
    rw [computeOutputPath, computeOutputName,
      if_pos (by simp [he, hne]), withExtension, if_neg hgz,
      append_dot_gz, ← String.append_assoc]

/-- Witness for `c5_override_amended` at concrete names: stripping
`archive.tar.gz` under `ForcePlaintext` restores it when `.gz` is
re-appended, and `data` (no extension) under `ForceGzip` becomes
`out/data.gz`. -/
theorem c5_override_amended_witness :
    computeOutputPath "out" (some OutputFormat.Plaintext) "archive.tar.gz" ++ ".gz"
        = "out" ++ "/" ++ "archive.tar.gz"
    ∧ computeOutputPath "out" (some OutputFormat.Gzipped) "data"
        = "out" ++ "/" ++ "data" ++ ".gz" :=
  ⟨(c5_override_amended "out" "archive.tar.gz").1 (by decide),
   (c5_override_amended "out" "data").2.2.2.1 (by decide)⟩

/-- C7: within one filter file, when several successfully decoded,
non-excluded records share an id, the built FilterSet maps that id to the
LAST such record in file order (each insert overwrites the previous entry
with the same id), and the FilterSet holds one entry per distinct id (its
keys are pairwise distinct). -/
theorem c7_last_seen_wins (decodeF : String → Option NodeListJson)
    (exclude_category : Option (List String)) (lines : List Line) (i : String) :
    FilterSet.lookup i (buildFilterSet decodeF exclude_category lines [] 0).1
      = ((insertedRecords decodeF exclude_category lines).filter
          fun r => decide (r.id = i)).getLast?
    ∧ (FilterSet.keys (buildFilterSet decodeF exclude_category lines [] 0).1).Nodup := by
  constructor
  · rw [buildFilterSet_lookup, lastWithId_eq_getLast?_filter]
    cases ((insertedRecords decodeF exclude_category lines).filter
        fun r => decide (r.id = i)).getLast? <;> rfl
  · exact buildFilterSet_nodup decodeF exclude_category lines [] 0 (by simp [FilterSet.keys])

end BabelFilter

namespace BabelFilter

/-! ## Per-file counters: decode tolerance and raw-line fidelity -/

theorem processFile_numNodes (decodeB : String → Option BabelJson)
    (fs : FilterSet) (lines : List Line) :
    (processFile decodeB fs lines).numNodes = lines.length := by
  induction lines generalizing fs with
  | nil => rfl
  | cons l rest ih =>
    cases l with
    | error e =>
      simp only [processFile, List.length_cons]
      rw [ih]
    | ok s =>
      cases hdec : decodeB s with
      | none =>
        simp only [processFile, hdec, List.length_cons]
        rw [ih]
      | some node =>
        cases hlk : FilterSet.lookup node.curie fs with
        | some v =>
          simp only [processFile, hdec, FilterSet.removeGet, hlk, List.length_cons]
          rw [ih]
        | none =>
          simp only [processFile, hdec, FilterSet.removeGet, hlk, List.length_cons]
          rw [ih]

theorem processFile_numDecodeErrors (decodeB : String → Option BabelJson)
    (fs : FilterSet) (lines : List Line) :
    (processFile decodeB fs lines).numDecodeErrors
      = ((okLines lines).filter fun s => (decodeB s).isNone).length := by
  induction lines generalizing fs with
  | nil => rfl
  | cons l rest ih =>
    cases l with
    | error e =>
      simp only [processFile, okLines, List.filterMap_cons]
      rw [ih]
      rfl
    | ok s =>
      cases hdec : decodeB s with
      | none =>
        simp only [processFile, hdec, okLines, List.filterMap_cons]
        rw [ih, List.filter_cons, if_pos (by simp [hdec])]
        rfl
      | some node =>
        have hfilter : ((okLines (Except.ok s :: rest)).filter
              fun t => (decodeB t).isNone)
            = (okLines rest).filter fun t => (decodeB t).isNone := by
          simp only [okLines, List.filterMap_cons]
          rw [List.filter_cons, if_neg (by simp [hdec])]
        rw [hfilter]
        cases hlk : FilterSet.lookup node.curie fs with
        | some v =>
          simp only [processFile, hdec, FilterSet.removeGet, hlk]
          rw [ih]
        | none =>
          simp only [processFile, hdec, FilterSet.removeGet, hlk]
          rw [ih]

theorem processFile_numReadErrors (decodeB : String → Option BabelJson)
    (fs : FilterSet) (lines : List Line) :
    (processFile decodeB fs lines).numReadErrors
      = (lines.filter fun l => decide (l.isOk = false)).length := by
  induction lines generalizing fs with
  | nil => rfl
  | cons l rest ih =>
    cases l with
    | error e =>
      simp only [processFile]
      rw [ih, List.filter_cons, if_pos (by simp [Except.isOk, Except.toBool])]
      rfl
    | ok s =>
      have hfilter : ((Except.ok s :: rest).filter fun l => decide (l.isOk = false))
          = rest.filter fun l => decide (l.isOk = false) := by
        rw [List.filter_cons, if_neg (by simp [Except.isOk, Except.toBool])]
      rw [hfilter]
      cases hdec : decodeB s with
      | none =>
        simp only [processFile, hdec]
        rw [ih]
      | some node =>
        cases hlk : FilterSet.lookup node.curie fs with
        | some v =>
          simp only [processFile, hdec, FilterSet.removeGet, hlk]
          rw [ih]
        | none =>
          simp only [processFile, hdec, FilterSet.removeGet, hlk]
          rw [ih]

theorem processFile_output_length (decodeB : String → Option BabelJson)
    (fs : FilterSet) (lines : List Line) :
    (processFile decodeB fs lines).output.length
      = (processFile decodeB fs lines).numKept := by
  induction lines generalizing fs with
  | nil => rfl
  | cons l rest ih =>
    cases l with
    | error e =>
      simp only [processFile]
      rw [ih]
    | ok s =>
      cases hdec : decodeB s with
      | none =>
        simp only [processFile, hdec]
        rw [ih]
      | some node =>
        cases hlk : FilterSet.lookup node.curie fs with
        | some v =>
          simp only [processFile, hdec, FilterSet.removeGet, hlk, List.length_cons]
          rw [ih]
        | none =>
          simp only [processFile, hdec, FilterSet.removeGet, hlk]
          rw [ih]

theorem processFile_numKept_le (decodeB : String → Option BabelJson)
    (fs : FilterSet) (lines : List Line) :
    (processFile decodeB fs lines).numKept
      ≤ ((okLines lines).filter fun s => (decodeB s).isSome).length := by
  induction lines generalizing fs with
  | nil => exact Nat.le_refl 0
  | cons l rest ih =>
    cases l with
    | error e =>
      simp only [processFile, okLines, List.filterMap_cons]
      exact ih fs
    | ok s =>
      cases hdec : decodeB s with
      | none =>
        have hfilter : ((okLines (Except.ok s :: rest)).filter
              fun t => (decodeB t).isSome)
            = (okLines rest).filter fun t => (decodeB t).isSome := by
          simp only [okLines, List.filterMap_cons]
          rw [List.filter_cons, if_neg (by simp [hdec])]
        simp only [processFile, hdec]
        rw [hfilter]
        exact ih fs
      | some node =>
        have hfilter : ((okLines (Except.ok s :: rest)).filter
              fun t => (decodeB t).isSome)
            = s :: ((okLines rest).filter fun t => (decodeB t).isSome) := by
          simp only [okLines, List.filterMap_cons]
          rw [List.filter_cons, if_pos (by simp [hdec])]
        rw [hfilter]
        cases hlk : FilterSet.lookup node.curie fs with
        | some v =>
          simp only [processFile, hdec, FilterSet.removeGet, hlk, List.length_cons]
          exact Nat.succ_le_succ (ih _)
        | none =>
          simp only [processFile, hdec, FilterSet.removeGet, hlk, List.length_cons]
          exact Nat.le_succ_of_le (ih fs)

theorem filter_isSome_isNone_length (decodeB : String → Option BabelJson)
    (l : List String) :
    (l.filter fun s => (decodeB s).isSome).length
      + (l.filter fun s => (decodeB s).isNone).length = l.length := by
  induction l with
  | nil => rfl
  | cons s rest ih =>
    cases hdec : decodeB s with
    | none =>
      rw [List.filter_cons, List.filter_cons, if_neg (by simp [hdec]),
        if_pos (by simp [hdec]), List.length_cons, List.length_cons]
      omega
    | some node =>
      rw [List.filter_cons, List.filter_cons, if_pos (by simp [hdec]),
        if_neg (by simp [hdec]), List.length_cons, List.length_cons]
      omega

theorem okLines_length_add_readErrors (lines : List Line) :
    (okLines lines).length
      + (lines.filter fun l => decide (l.isOk = false)).length
      = lines.length := by
  induction lines with
  | nil => rfl
  | cons l rest ih =>
    cases l with
    | error e =>
      simp only [okLines, List.filterMap_cons]
      rw [List.filter_cons, if_pos (by simp [Except.isOk, Except.toBool]), List.length_cons,
        List.length_cons]
      rw [okLines] at ih
      omega
    | ok s =>
      simp only [okLines, List.filterMap_cons]
      rw [List.filter_cons, if_neg (by simp [Except.isOk, Except.toBool]), List.length_cons,
        List.length_cons]
      rw [okLines] at ih
      omega

end BabelFilter

namespace BabelFilter

/-- Concrete Babel decoder for the C6 concrete scenario: line `good` decodes,
line `bad` is malformed. -/
def c6decodeB : String → Option BabelJson := fun s =>
  if s = "good" then some ⟨"C:1", [], [], none, none, []⟩ else none

/-- C6: the per-file loop is total and tolerant: every line is counted as
processed; the number of reported decode errors equals the number of
successfully read lines whose decode fails; the processed count splits into
decode successes (the candidates considered for matching), decode failures
and read failures; malformed lines are neither kept nor written (the output
has exactly `num_kept` lines, bounded by the candidate count). Concretely,
100 valid lines plus 5 malformed lines give 105 processed lines, 5 reported
decode errors, and 105 − 5 = 100 candidates, with the loop running to
completion. -/
theorem c6_decode_tolerance (decodeB : String → Option BabelJson)
    (fs : FilterSet) (lines : List Line) :
    ((processFile decodeB fs lines).numNodes = lines.length
    ∧ (processFile decodeB fs lines).numDecodeErrors
        = ((okLines lines).filter fun s => (decodeB s).isNone).length
    ∧ (processFile decodeB fs lines).numNodes
        = ((okLines lines).filter fun s => (decodeB s).isSome).length
          + (processFile decodeB fs lines).numDecodeErrors
          + (processFile decodeB fs lines).numReadErrors
    ∧ (processFile decodeB fs lines).output.length
        = (processFile decodeB fs lines).numKept
    ∧ (processFile decodeB fs lines).numKept
        ≤ ((okLines lines).filter fun s => (decodeB s).isSome).length)
    ∧ ((processFile c6decodeB []
          (List.replicate 100 (Except.ok "good")
            ++ List.replicate 5 (Except.ok "bad"))).numNodes = 105
    ∧ (processFile c6decodeB []
          (List.replicate 100 (Except.ok "good")
            ++ List.replicate 5 (Except.ok "bad"))).numDecodeErrors = 5
    ∧ (processFile c6decodeB []
          (List.replicate 100 (Except.ok "good")
            ++ List.replicate 5 (Except.ok "bad"))).numNodes
        - (processFile c6decodeB []
          (List.replicate 100 (Except.ok "good")
            ++ List.replicate 5 (Except.ok "bad"))).numDecodeErrors = 100) := by
  constructor
  · refine ⟨processFile_numNodes decodeB fs lines,
      processFile_numDecodeErrors decodeB fs lines, ?_,
      processFile_output_length decodeB fs lines,
      processFile_numKept_le decodeB fs lines⟩
    have h1 := processFile_numNodes decodeB fs lines
    have h2 := processFile_numDecodeErrors decodeB fs lines
    have h3 := processFile_numReadErrors decodeB fs lines
    have h4 := filter_isSome_isNone_length decodeB (okLines lines)
    have h5 := okLines_length_add_readErrors lines
    omega
  · refine ⟨by decide, by decide, by decide⟩

theorem processFile_output_sublist (decodeB : String → Option BabelJson)
    (fs : FilterSet) (lines : List Line) :
    (processFile decodeB fs lines).output.Sublist (okLines lines) := by
  induction lines generalizing fs with
  | nil => exact List.Sublist.refl []
  | cons l rest ih =>
    cases l with
    | error e =>
      simp only [processFile, okLines, List.filterMap_cons]
      exact ih fs
    | ok s =>
      cases hdec : decodeB s with
      | none =>
        simp only [processFile, hdec, okLines, List.filterMap_cons]
        exact (ih fs).cons s
      | some node =>
        cases hlk : FilterSet.lookup node.curie fs with
        | some v =>
          simp only [processFile, hdec, FilterSet.removeGet, hlk, okLines,
            List.filterMap_cons]
          exact (ih _).cons₂ s
        | none =>
          simp only [processFile, hdec, FilterSet.removeGet, hlk, okLines,
            List.filterMap_cons]
          exact (ih fs).cons s

theorem processFile_output_decodes (decodeB : String → Option BabelJson)
    (fs : FilterSet) (lines : List Line) :
    ∀ s ∈ (processFile decodeB fs lines).output, (decodeB s).isSome := by
  induction lines generalizing fs with
  | nil => intro s hs; exact absurd hs (by simp [processFile])
  | cons l rest ih =>
    cases l with
    | error e =>
      simp only [processFile]
      exact ih fs
    | ok s0 =>
      cases hdec : decodeB s0 with
      | none =>
        simp only [processFile, hdec]
        exact ih fs
      | some node =>
        cases hlk : FilterSet.lookup node.curie fs with
        | some v =>
          simp only [processFile, hdec, FilterSet.removeGet, hlk]
          intro s hs
          rcases List.mem_cons.mp hs with rfl | hmem
          · simp [hdec]
          · exact ih _ s hmem
        | none =>
          simp only [processFile, hdec, FilterSet.removeGet, hlk]
          exact ih fs

theorem renderLines_aux (out : List String) (acc : String) :
    out.foldl (fun a s => a ++ s ++ "\n") acc
      = acc ++ out.foldr (fun s acc2 => s ++ "\n" ++ acc2) "" := by
  induction out generalizing acc with
  | nil =>
    show acc = acc ++ ""
    apply string_data_ext
    rw [string_append_data]
    show acc.data = acc.data ++ []
    rw [List.append_nil]
  | cons s rest ih =>
    show rest.foldl (fun a t => a ++ t ++ "\n") (acc ++ s ++ "\n")
      = acc ++ ((s ++ "\n") ++ rest.foldr (fun t acc2 => t ++ "\n" ++ acc2) "")
    rw [ih]
    simp [String.append_assoc]

theorem renderLines_foldr (out : List String) :
    renderLines out = out.foldr (fun s acc => s ++ "\n" ++ acc) "" := by
  rw [renderLines, renderLines_aux]
  apply string_data_ext
  rw [string_append_data]
  show ("" : String).data ++ _ = _
  rw [List.nil_append]

/-- Concrete Babel decoder for the C4 witness. -/
def c4decodeB : String → Option BabelJson := fun s =>
  if s = "b1" then some ⟨"A", [], [], none, none, []⟩ else none

/-- C4: every line written to a per-file output is one of the file's raw
input lines, byte-identical and in input order (a sublist of the successfully
read lines) — the write path emits the line text it read, never an encoder's
output — each such line decodes successfully (only decoded-and-matched lines
are written), and the bytes written for the whole file are exactly each raw
line followed by one `\n` (the `write_line` contract). -/
theorem c4_raw_line_fidelity (decodeB : String → Option BabelJson)
    (fs : FilterSet) (lines : List Line) :
    (processFile decodeB fs lines).output.Sublist (okLines lines)
    ∧ (∀ s ∈ (processFile decodeB fs lines).output, (decodeB s).isSome)
    ∧ renderLines (processFile decodeB fs lines).output
        = (processFile decodeB fs lines).output.foldr
            (fun s acc => s ++ "\n" ++ acc) "" :=
  ⟨processFile_output_sublist decodeB fs lines,
   processFile_output_decodes decodeB fs lines,
   renderLines_foldr (processFile decodeB fs lines).output⟩

/-- Witness for `c4_raw_line_fidelity`: on a one-line file whose line `b1`
decodes to curie `A` present in the filter set, the output consists of the raw
line `b1`, it decodes, and the rendered file is `b1` plus one newline. -/
theorem c4_raw_line_fidelity_witness :
    ("b1" : String) ∈ (processFile c4decodeB [("A", ⟨"A", "a", [], none⟩)]
        [Except.ok "b1"]).output
    ∧ (c4decodeB "b1").isSome :=
  ⟨by decide,
   (c4_raw_line_fidelity c4decodeB [("A", ⟨"A", "a", [], none⟩)]
      [Except.ok "b1"]).2.1 "b1" (by decide)⟩

end BabelFilter

namespace BabelFilter

/-! ## The overflow file -/

theorem fsLookup_createWrite (st : FileStore) (p c : String) :
    fsLookup p (fsCreateWrite st p c) = some c := by
  rw [fsLookup, fsCreateWrite, List.find?_append]
  have hnone : ((st.filter fun q => decide (q.1 ≠ p)).find?
      fun q => decide (q.1 = p)) = none := by
    rw [List.find?_eq_none]
    intro q hq
    rcases List.mem_filter.mp hq with ⟨_, hne⟩
    simp at hne ⊢
    exact hne
  have hsingle : (([(p, c)] : FileStore).find? fun q => decide (q.1 = p))
      = some (p, c) := List.find?_cons_of_pos _ (by simp)
  rw [hnone, hsingle]
  rfl

theorem applyRun_append_single (st : FileStore) (files : List (String × String))
    (p c : String) :
    applyRun st (files ++ [(p, c)]) = fsCreateWrite (applyRun st files) p c := by
  rw [applyRun, applyRun, List.foldl_append]
  rfl

theorem renderLines_cons_ne_empty (x : String) (xs : List String) :
    renderLines (x :: xs) ≠ "" := by
  rw [renderLines_foldr]
  intro h
  have hd := congrArg String.data h
  rw [show ((x :: xs).foldr (fun s acc => s ++ "\n" ++ acc) "")
      = x ++ "\n" ++ xs.foldr (fun s acc => s ++ "\n" ++ acc) "" from rfl,
    string_append_data, string_append_data] at hd
  have : (("\n" : String).data) = ['\n'] := rfl
  rw [this] at hd
  simp at hd

/-- C9: the overflow file `NonBabelNodes.txt.gz` is created in the output
directory on every run that reaches reconciliation — `Writer::new` runs
before the leftover loop, and `File::create` truncates whatever was at that
path — so after applying the run's writes to ANY pre-existing store, the
overflow path holds exactly the freshly rendered overflow content, which is
the empty string exactly when the post-processing filter set is empty: a run
that matched every filter identifier still produces an (empty, gzip-named)
overflow file rather than no file. -/
theorem c9_overflow_file_unconditional (encodeB : BabelJson → String)
    (decodeF : String → Option NodeListJson) (decodeB : String → Option BabelJson)
    (exclude_category : Option (List String)) (output_format : Option OutputFormat)
    (outDir : String) (filterLines : List Line)
    (babelFiles : List (String × List Line)) (st : FileStore) :
    fsLookup (nonBabelNodesPath outDir)
        (applyRun st (producedFiles encodeB outDir
          (run decodeF decodeB exclude_category output_format outDir
            filterLines babelFiles)))
      = some (renderLines
          ((run decodeF decodeB exclude_category output_format outDir
            filterLines babelFiles).overflowRecords.map encodeB))
    ∧ ((run decodeF decodeB exclude_category output_format outDir
          filterLines babelFiles).finalSet = [] →
        renderLines ((run decodeF decodeB exclude_category output_format outDir
          filterLines babelFiles).overflowRecords.map encodeB) = "")
    ∧ ((run decodeF decodeB exclude_category output_format outDir
          filterLines babelFiles).finalSet ≠ [] →
        renderLines ((run decodeF decodeB exclude_category output_format outDir
          filterLines babelFiles).overflowRecords.map encodeB) ≠ "") := by
  refine ⟨?_, ?_, ?_⟩
  · rw [producedFiles, applyRun_append_single, fsLookup_createWrite]
  · intro h
    have hrec : (run decodeF decodeB exclude_category output_format outDir
        filterLines babelFiles).overflowRecords
        = reconcileAll (run decodeF decodeB exclude_category output_format outDir
          filterLines babelFiles).finalSet := rfl
    rw [hrec, h]
    rfl
  · intro h
    have hrec : (run decodeF decodeB exclude_category output_format outDir
        filterLines babelFiles).overflowRecords
        = reconcileAll (run decodeF decodeB exclude_category output_format outDir
          filterLines babelFiles).finalSet := rfl
    rw [hrec]
    cases hfs : (run decodeF decodeB exclude_category output_format outDir
        filterLines babelFiles).finalSet with
    | nil => exact absurd hfs h
    | cons q qs => exact renderLines_cons_ne_empty _ _

/-- Witness for `c9_overflow_file_unconditional`: a run with no filter lines
and no input files leaves an empty filter set, and the overflow file's
rendered content is the empty string (the file exists, empty). -/
theorem c9_overflow_file_unconditional_witness :
    (run (fun _ => none) (fun _ => none) none none "out" [] []).finalSet = []
    ∧ renderLines ((run (fun _ => none) (fun _ => none) none none "out"
        [] []).overflowRecords.map (fun _ => "")) = "" :=
  ⟨rfl, (c9_overflow_file_unconditional (fun _ => "") (fun _ => none)
    (fun _ => none) none none "out" [] [] []).2.1 rfl⟩

end BabelFilter

namespace BabelFilter

/-! ## Membership completeness -/

/-- 1 when the identifier is currently in the filter set, else 0. -/
def memInd (fs : FilterSet) (i : String) : Nat :=
  if i ∈ FilterSet.keys fs then 1 else 0

theorem lookup_some_mem {fs : FilterSet} {k : String} {v : NodeListJson}
    (h : FilterSet.lookup k fs = some v) : k ∈ FilterSet.keys fs := by
  rw [FilterSet.lookup] at h
  cases hf : fs.find? fun p => decide (p.1 = k) with
  | none => rw [hf] at h; exact absurd h (by simp)
  | some p =>
    have hp := List.find?_some hf
    have hmem := List.mem_of_find?_eq_some hf
    exact mem_keys_iff.mpr ⟨p, hmem, by simpa using hp⟩

theorem memInd_filterNe_self (fs : FilterSet) (k : String) :
    memInd (fs.filter fun p => decide (p.1 ≠ k)) k = 0 := by
  rw [memInd, if_neg (keys_filterNe_not_mem fs k)]

theorem memInd_filterNe_other (fs : FilterSet) {k i : String} (h : i ≠ k) :
    memInd (fs.filter fun p => decide (p.1 ≠ k)) i = memInd fs i := by
  rw [memInd, memInd]
  by_cases hm : i ∈ FilterSet.keys fs
  · rw [if_pos hm, if_pos ((mem_keys_filterNe h).mpr hm)]
  · rw [if_neg hm, if_neg (fun hc => hm ((mem_keys_filterNe h).mp hc))]

theorem processFile_count (decodeB : String → Option BabelJson)
    (fs : FilterSet) (lines : List Line) (i : String) :
    countCuried decodeB i (processFile decodeB fs lines).output
      + memInd (processFile decodeB fs lines).fs i = memInd fs i := by
  induction lines generalizing fs with
  | nil => simp [processFile, countCuried]
  | cons l rest ih =>
    cases l with
    | error e =>
      simp only [processFile]
      exact ih fs
    | ok s =>
      cases hdec : decodeB s with
      | none =>
        simp only [processFile, hdec]
        exact ih fs
      | some node =>
        cases hlk : FilterSet.lookup node.curie fs with
        | some v =>
          simp only [processFile, hdec, FilterSet.removeGet, hlk]
          rw [countCuried, List.countP_cons]
          by_cases hci : node.curie = i
          · subst hci
            have hmem : node.curie ∈ FilterSet.keys fs := lookup_some_mem hlk
            have hfs0 : memInd fs node.curie = 1 := by
              rw [memInd, if_pos hmem]
            have hnext0 : memInd (fs.filter fun p => decide (p.1 ≠ node.curie))
                node.curie = 0 := memInd_filterNe_self fs node.curie
            have hrec := ih (fs.filter fun p => decide (p.1 ≠ node.curie))
            rw [hnext0] at hrec
            have hcount0 : countCuried decodeB node.curie
                (processFile decodeB
                  (fs.filter fun p => decide (p.1 ≠ node.curie)) rest).output = 0 ∧
                memInd (processFile decodeB
                  (fs.filter fun p => decide (p.1 ≠ node.curie)) rest).fs
                  node.curie = 0 := by
              constructor <;> omega
            rw [countCuried] at hcount0
            rw [hcount0.1, hcount0.2, hfs0, if_pos (by simp [hdec])]
          · have hstep : memInd (fs.filter fun p => decide (p.1 ≠ node.curie)) i
                = memInd fs i := memInd_filterNe_other fs (fun hh => hci hh.symm)
            have hrec := ih (fs.filter fun p => decide (p.1 ≠ node.curie))
            rw [hstep] at hrec
            rw [if_neg (by simp [hdec, hci])]
            rw [countCuried] at hrec
            omega
        | none =>
          simp only [processFile, hdec, FilterSet.removeGet, hlk]
          exact ih fs

theorem processFile_nodup (decodeB : String → Option BabelJson)
    (fs : FilterSet) (lines : List Line) (h : (FilterSet.keys fs).Nodup) :
    (FilterSet.keys (processFile decodeB fs lines).fs).Nodup := by
  induction lines generalizing fs with
  | nil => exact h
  | cons l rest ih =>
    cases l with
    | error e =>
      simp only [processFile]
      exact ih fs h
    | ok s =>
      cases hdec : decodeB s with
      | none =>
        simp only [processFile, hdec]
        exact ih fs h
      | some node =>
        cases hlk : FilterSet.lookup node.curie fs with
        | some v =>
          simp only [processFile, hdec, FilterSet.removeGet, hlk]
          exact ih _ (nodup_keys_filterNe node.curie h)
        | none =>
          simp only [processFile, hdec, FilterSet.removeGet, hlk]
          exact ih fs h

theorem runBabelFiles_count (decodeB : String → Option BabelJson)
    (output_format : Option OutputFormat) (outDir : String)
    (fs : FilterSet) (files : List (String × List Line)) (i : String) :
    ((runBabelFiles decodeB output_format outDir fs files).2.map
        fun p => countCuried decodeB i p.2).sum
      + memInd (runBabelFiles decodeB output_format outDir fs files).1 i
      = memInd fs i := by
  induction files generalizing fs with
  | nil => simp [runBabelFiles]
  | cons f rest ih =>
    simp only [runBabelFiles, List.map_cons, List.sum_cons]
    have h1 := processFile_count decodeB fs f.2 i
    have h2 := ih (processFile decodeB fs f.2).fs
    omega

theorem runBabelFiles_nodup (decodeB : String → Option BabelJson)
    (output_format : Option OutputFormat) (outDir : String)
    (fs : FilterSet) (files : List (String × List Line))
    (h : (FilterSet.keys fs).Nodup) :
    (FilterSet.keys (runBabelFiles decodeB output_format outDir fs files).1).Nodup := by
  induction files generalizing fs with
  | nil => exact h
  | cons f rest ih =>
    simp only [runBabelFiles]
    exact ih _ (processFile_nodup decodeB fs f.2 h)

theorem reconcileAll_countP (fs : FilterSet) (i : String)
    (h : (FilterSet.keys fs).Nodup) :
    ((reconcileAll fs).countP fun b => decide (b.curie = i)) = memInd fs i := by
  rw [reconcileAll, List.countP_map]
  induction fs with
  | nil => rfl
  | cons q qs ih =>
    have hkeys : (FilterSet.keys (q :: qs)) = q.1 :: FilterSet.keys qs := rfl
    rw [hkeys] at h
    have hnotmem : q.1 ∉ FilterSet.keys qs := (List.nodup_cons.mp h).1
    have hqs : (FilterSet.keys qs).Nodup := (List.nodup_cons.mp h).2
    rw [List.countP_cons, ih hqs]
    have hcond : (((fun b => decide (b.curie = i))
        ∘ fun p => reconcileNode p.1 p.2) q = true) ↔ q.1 = i := by
      simp [Function.comp, reconcileNode]
    by_cases hq : q.1 = i
    · rw [if_pos (hcond.mpr hq)]
      have hmemq : memInd qs i = 0 := by
        rw [memInd, if_neg (hq ▸ hnotmem)]
      have hmemc : memInd (q :: qs) i = 1 := by
        rw [memInd, if_pos (by rw [hkeys, hq]; exact List.mem_cons_self i _)]
      omega
    · rw [if_neg (fun hc => hq (hcond.mp hc))]
      have hmemc : memInd (q :: qs) i = memInd qs i := by
        rw [memInd, memInd, hkeys]
        by_cases hm : i ∈ FilterSet.keys qs
        · rw [if_pos (List.mem_cons_of_mem _ hm), if_pos hm]
        · rw [if_neg ?_, if_neg hm]
          intro hc
          rcases List.mem_cons.mp hc with hc1 | hc2
          · exact hq hc1.symm
          · exact hm hc2
      omega

end BabelFilter

namespace BabelFilter

/-- C1: for every identifier in the FilterSet after exclusion, a full library
run emits it as the `curie` of exactly one output line over all per-file
outputs and the overflow file together: the number of written per-file lines
decoding to that curie plus the number of synthesized overflow records with
that curie is exactly 1 — once matched the entry is removed and never written
again, and reconciliation emits exactly the never-matched entries. -/
theorem c1_membership_completeness (decodeF : String → Option NodeListJson)
    (decodeB : String → Option BabelJson)
    (exclude_category : Option (List String)) (output_format : Option OutputFormat)
    (outDir : String) (filterLines : List Line)
    (babelFiles : List (String × List Line)) (i : String)
    (hi : i ∈ FilterSet.keys (buildFilterSet decodeF exclude_category
      filterLines [] 0).1) :
    ((run decodeF decodeB exclude_category output_format outDir filterLines
        babelFiles).outputs.map fun p => countCuried decodeB i p.2).sum
      + ((run decodeF decodeB exclude_category output_format outDir filterLines
        babelFiles).overflowRecords.countP fun b => decide (b.curie = i))
      = 1 := by
  have hb : (FilterSet.keys (buildFilterSet decodeF exclude_category
      filterLines [] 0).1).Nodup :=
    buildFilterSet_nodup decodeF exclude_category filterLines [] 0
      (by simp [FilterSet.keys])
  have ho : (run decodeF decodeB exclude_category output_format outDir
      filterLines babelFiles).outputs
      = (runBabelFiles decodeB output_format outDir
        (buildFilterSet decodeF exclude_category filterLines [] 0).1
        babelFiles).2 := rfl
  have hr : (run decodeF decodeB exclude_category output_format outDir
      filterLines babelFiles).overflowRecords
      = reconcileAll (runBabelFiles decodeB output_format outDir
        (buildFilterSet decodeF exclude_category filterLines [] 0).1
        babelFiles).1 := rfl
  have hfinal : (FilterSet.keys (runBabelFiles decodeB output_format outDir
      (buildFilterSet decodeF exclude_category filterLines [] 0).1
      babelFiles).1).Nodup :=
    runBabelFiles_nodup decodeB output_format outDir _ babelFiles hb
  have hcnt := runBabelFiles_count decodeB output_format outDir
    (buildFilterSet decodeF exclude_category filterLines [] 0).1 babelFiles i
  have hov := reconcileAll_countP (runBabelFiles decodeB output_format outDir
    (buildFilterSet decodeF exclude_category filterLines [] 0).1
    babelFiles).1 i hfinal
  have hmem : memInd (buildFilterSet decodeF exclude_category
      filterLines [] 0).1 i = 1 := by
    rw [memInd, if_pos hi]
  rw [ho, hr, hov]
  omega

/-- Concrete filter decoder for the C1 witness. -/
def c1decodeF : String → Option NodeListJson := fun s =>
  if s = "f1" then some ⟨"A", "a", ["biolink:Gene"], none⟩ else none

/-- Concrete Babel decoder for the C1 witness. -/
def c1decodeB : String → Option BabelJson := fun s =>
  if s = "b1" then some ⟨"A", [], [], none, none, []⟩ else none

/-- Witness for `c1_membership_completeness`: one filter record `A`, one
input line matching it — `A` is emitted exactly once across the per-file
outputs and the overflow file. -/
theorem c1_membership_completeness_witness :
    "A" ∈ FilterSet.keys (buildFilterSet c1decodeF none [Except.ok "f1"] [] 0).1
    ∧ ((run c1decodeF c1decodeB none none "out" [Except.ok "f1"]
          [("data.txt", [Except.ok "b1"])]).outputs.map
        fun p => countCuried c1decodeB "A" p.2).sum
      + ((run c1decodeF c1decodeB none none "out" [Except.ok "f1"]
          [("data.txt", [Except.ok "b1"])]).overflowRecords.countP
            fun b => decide (b.curie = "A")) = 1 :=
  ⟨by decide,
   c1_membership_completeness c1decodeF c1decodeB none none "out"
     [Except.ok "f1"] [("data.txt", [Except.ok "b1"])] "A" (by decide)⟩

/-- C2, amended: a record whose category intersects the non-empty exclusion
list is itself never inserted — an identifier is in the FilterSet if and only
if some successfully decoded, NON-excluded record carries it — and the
excluded-count equals the number of excluded decoded records. Consequently,
when no non-excluded record shares the excluded record's id, that id never
appears in the FilterSet, is never matched (no per-file output line of any
full run decodes to it) and is never reconciled (no overflow record of any
full run carries it). -/
theorem c2_exclusion_amended (decodeF : String → Option NodeListJson)
    (cats : List String) (lines : List Line) (i : String) :
    (i ∈ FilterSet.keys (buildFilterSet decodeF (some cats) lines [] 0).1
      ↔ ∃ r ∈ insertedRecords decodeF (some cats) lines, r.id = i)
    ∧ (buildFilterSet decodeF (some cats) lines [] 0).2
        = (excludedRecords decodeF (some cats) lines).length
    ∧ (∀ (decodeB : String → Option BabelJson)
        (output_format : Option OutputFormat) (outDir : String)
        (babelFiles : List (String × List Line)),
        (∀ r ∈ insertedRecords decodeF (some cats) lines, r.id ≠ i) →
        ((run decodeF decodeB (some cats) output_format outDir lines
            babelFiles).outputs.map fun p => countCuried decodeB i p.2).sum = 0
        ∧ ((run decodeF decodeB (some cats) output_format outDir lines
            babelFiles).overflowRecords.countP
              fun b => decide (b.curie = i)) = 0) := by
  refine ⟨buildFilterSet_mem_keys decodeF (some cats) lines i, ?_, ?_⟩
  · rw [buildFilterSet_removed]
    omega
  · intro decodeB output_format outDir babelFiles hno
    have hnotmem : i ∉ FilterSet.keys
        (buildFilterSet decodeF (some cats) lines [] 0).1 := by
      intro hmem
      rcases (buildFilterSet_mem_keys decodeF (some cats) lines i).mp hmem
        with ⟨r, hr, hri⟩
      exact hno r hr hri
    have hmem0 : memInd (buildFilterSet decodeF (some cats) lines [] 0).1 i
        = 0 := by
      rw [memInd, if_neg hnotmem]
    have hb : (FilterSet.keys (buildFilterSet decodeF (some cats)
        lines [] 0).1).Nodup :=
      buildFilterSet_nodup decodeF (some cats) lines [] 0
        (by simp [FilterSet.keys])
    have hfinal : (FilterSet.keys (runBabelFiles decodeB output_format outDir
        (buildFilterSet decodeF (some cats) lines [] 0).1
        babelFiles).1).Nodup :=
      runBabelFiles_nodup decodeB output_format outDir _ babelFiles hb
    have hcnt := runBabelFiles_count decodeB output_format outDir
      (buildFilterSet decodeF (some cats) lines [] 0).1 babelFiles i
    have hov := reconcileAll_countP (runBabelFiles decodeB output_format outDir
      (buildFilterSet decodeF (some cats) lines [] 0).1
      babelFiles).1 i hfinal
    have ho : (run decodeF decodeB (some cats) output_format outDir
        lines babelFiles).outputs
        = (runBabelFiles decodeB output_format outDir
          (buildFilterSet decodeF (some cats) lines [] 0).1
          babelFiles).2 := rfl
    have hr : (run decodeF decodeB (some cats) output_format outDir
        lines babelFiles).overflowRecords
        = reconcileAll (runBabelFiles decodeB output_format outDir
          (buildFilterSet decodeF (some cats) lines [] 0).1
          babelFiles).1 := rfl
    rw [ho, hr, hov]
    omega

/-- Concrete Babel decoder for the C2 witness: line `bx` decodes to curie
`X`, the id of the excluded filter record. -/
def c2decodeBW : String → Option BabelJson := fun s =>
  if s = "bx" then some ⟨"X", [], [], none, none, []⟩ else none

/-- Witness for `c2_exclusion_amended`: a filter file holding only the
excluded record (id `X`, category `Bad`) inserts nothing, so a full run over
an input line whose curie is `X` writes no per-file line for `X` and no
overflow record for `X`. -/
theorem c2_exclusion_amended_witness :
    (∀ r ∈ insertedRecords c2decodeF (some ["Bad"]) [Except.ok "l1"],
      r.id ≠ "X")
    ∧ ((run c2decodeF c2decodeBW (some ["Bad"]) none "out" [Except.ok "l1"]
          [("f", [Except.ok "bx"])]).outputs.map
        fun p => countCuried c2decodeBW "X" p.2).sum = 0
    ∧ ((run c2decodeF c2decodeBW (some ["Bad"]) none "out" [Except.ok "l1"]
          [("f", [Except.ok "bx"])]).overflowRecords.countP
            fun b => decide (b.curie = "X")) = 0 :=
  ⟨by decide,
   ((c2_exclusion_amended c2decodeF ["Bad"] [Except.ok "l1"] "X").2.2
      c2decodeBW none "out" [("f", [Except.ok "bx"])] (by decide)).1,
   ((c2_exclusion_amended c2decodeF ["Bad"] [Except.ok "l1"] "X").2.2
      c2decodeBW none "out" [("f", [Except.ok "bx"])] (by decide)).2⟩

end BabelFilter

namespace BabelFilter

/-! ## Refinement: depleting map vs non-depleting set -/

/-- Occurrences of a string in a list. -/
def countOcc (c : String) (l : List String) : Nat :=
  l.countP fun x => decide (x = c)

/-- All decoded curies across a run's input files, in processing order. -/
def allCuries (decodeB : String → Option BabelJson) :
    List (String × List Line) → List String
  | [] => []
  | f :: rest => decodedCuries decodeB f.2 ++ allCuries decodeB rest

theorem decodedCuries_error (decodeB : String → Option BabelJson)
    (e : Unit) (rest : List Line) :
    decodedCuries decodeB (Except.error e :: rest) = decodedCuries decodeB rest := rfl

theorem decodedCuries_ok_none (decodeB : String → Option BabelJson)
    {s : String} (rest : List Line) (hdec : decodeB s = none) :
    decodedCuries decodeB (Except.ok s :: rest) = decodedCuries decodeB rest := by
  simp [decodedCuries, List.filterMap_cons, hdec]

theorem decodedCuries_ok_some (decodeB : String → Option BabelJson)
    {s : String} {node : BabelJson} (rest : List Line)
    (hdec : decodeB s = some node) :
    decodedCuries decodeB (Except.ok s :: rest)
      = node.curie :: decodedCuries decodeB rest := by
  simp [decodedCuries, List.filterMap_cons, hdec]

theorem keys_filterNe_subset (fs : FilterSet) (k : String) :
    ∀ c ∈ FilterSet.keys (fs.filter fun p => decide (p.1 ≠ k)),
      c ∈ FilterSet.keys fs := by
  intro c hc
  by_cases hck : c = k
  · subst hck
    exact absurd hc (keys_filterNe_not_mem fs c)
  · exact (mem_keys_filterNe hck).mp hc

theorem countOcc_pos_of_mem {c : String} {l : List String} (h : c ∈ l) :
    1 ≤ countOcc c l := by
  rw [countOcc]
  have hpos : 0 < l.countP fun x => decide (x = c) :=
    List.countP_pos_iff.mpr ⟨c, h, by simp⟩
  omega

end BabelFilter

namespace BabelFilter

theorem processFileBin_error (decodeB : String → Option BabelJson)
    (set : List String) (e : Unit) (rest : List Line) :
    BabelBin.processFileBin decodeB set (Except.error e :: rest)
      = BabelBin.processFileBin decodeB set rest := rfl

theorem processFileBin_ok_none (decodeB : String → Option BabelJson)
    (set : List String) {s : String} (rest : List Line)
    (hdec : decodeB s = none) :
    BabelBin.processFileBin decodeB set (Except.ok s :: rest)
      = BabelBin.processFileBin decodeB set rest := by
  simp [BabelBin.processFileBin, List.filterMap_cons, hdec]

theorem processFileBin_ok_mem (decodeB : String → Option BabelJson)
    (set : List String) {s : String} {node : BabelJson} (rest : List Line)
    (hdec : decodeB s = some node) (hmem : node.curie ∈ set) :
    BabelBin.processFileBin decodeB set (Except.ok s :: rest)
      = s :: BabelBin.processFileBin decodeB set rest := by
  simp [BabelBin.processFileBin, List.filterMap_cons, hdec, hmem]

theorem processFileBin_ok_not_mem (decodeB : String → Option BabelJson)
    (set : List String) {s : String} {node : BabelJson} (rest : List Line)
    (hdec : decodeB s = some node) (hmem : node.curie ∉ set) :
    BabelBin.processFileBin decodeB set (Except.ok s :: rest)
      = BabelBin.processFileBin decodeB set rest := by
  simp [BabelBin.processFileBin, List.filterMap_cons, hdec, hmem]

theorem processFile_eq_bin (decodeB : String → Option BabelJson)
    (set : List String) (fs0 : FilterSet) :
    ∀ (lines : List Line) (fs : FilterSet),
    (∀ c, c ∈ set ↔ c ∈ FilterSet.keys fs0) →
    (∀ c, c ∈ FilterSet.keys fs → c ∈ FilterSet.keys fs0) →
    (∀ c, c ∈ FilterSet.keys fs0 → c ∈ decodedCuries decodeB lines →
      c ∈ FilterSet.keys fs) →
    (∀ c, c ∈ FilterSet.keys fs0 →
      countOcc c (decodedCuries decodeB lines) ≤ 1) →
    (processFile decodeB fs lines).output
        = BabelBin.processFileBin decodeB set lines
    ∧ (∀ c, c ∈ FilterSet.keys (processFile decodeB fs lines).fs →
        c ∈ FilterSet.keys fs0)
    ∧ (∀ c, c ∈ FilterSet.keys fs0 → c ∉ decodedCuries decodeB lines →
        (c ∈ FilterSet.keys (processFile decodeB fs lines).fs
          ↔ c ∈ FilterSet.keys fs)) := by
  intro lines
  induction lines with
  | nil =>
    intro fs hset hsub hpres hcnt
    exact ⟨rfl, hsub, fun c hc0 hnc => Iff.rfl⟩
  | cons l rest ih =>
    intro fs hset hsub hpres hcnt
    cases l with
    | error e =>
      rw [decodedCuries_error] at hpres hcnt
      obtain ⟨h1, h2, h3⟩ := ih fs hset hsub hpres hcnt
      refine ⟨?_, ?_, ?_⟩
      · rw [processFileBin_error]
        simp only [processFile]
        exact h1
      · intro c hc
        simp only [processFile] at hc
        exact h2 c hc
      · intro c hc0 hnc
        rw [decodedCuries_error] at hnc
        simp only [processFile]
        exact h3 c hc0 hnc
    | ok s =>
      cases hdec : decodeB s with
      | none =>
        rw [decodedCuries_ok_none decodeB rest hdec] at hpres hcnt
        obtain ⟨h1, h2, h3⟩ := ih fs hset hsub hpres hcnt
        refine ⟨?_, ?_, ?_⟩
        · rw [processFileBin_ok_none decodeB set rest hdec]
          simp only [processFile, hdec]
          exact h1
        · intro c hc
          simp only [processFile, hdec] at hc
          exact h2 c hc
        · intro c hc0 hnc
          rw [decodedCuries_ok_none decodeB rest hdec] at hnc
          simp only [processFile, hdec]
          exact h3 c hc0 hnc
      | some node =>
        rw [decodedCuries_ok_some decodeB rest hdec] at hpres hcnt
        by_cases hc0 : node.curie ∈ FilterSet.keys fs0
        · have hmemfs : node.curie ∈ FilterSet.keys fs :=
            hpres node.curie hc0 (List.mem_cons_self _ _)
          obtain ⟨v, hlk⟩ := Option.isSome_iff_exists.mp
            (lookup_isSome_of_mem hmemfs)
          have hsub2 : ∀ c, c ∈ FilterSet.keys
              (fs.filter fun p => decide (p.1 ≠ node.curie)) →
              c ∈ FilterSet.keys fs0 :=
            fun c hc => hsub c (keys_filterNe_subset fs node.curie c hc)
          have hpres2 : ∀ c, c ∈ FilterSet.keys fs0 →
              c ∈ decodedCuries decodeB rest →
              c ∈ FilterSet.keys (fs.filter fun p => decide (p.1 ≠ node.curie)) := by
            intro c hcc hcr
            by_cases hceq : c = node.curie
            · exfalso
              have h2c := hcnt c hcc
              rw [countOcc, List.countP_cons, if_pos (by simp [hceq])] at h2c
              have hge := countOcc_pos_of_mem hcr
              rw [countOcc] at hge
              omega
            · exact (mem_keys_filterNe hceq).mpr
                (hpres c hcc (List.mem_cons_of_mem _ hcr))
          have hcnt2 : ∀ c, c ∈ FilterSet.keys fs0 →
              countOcc c (decodedCuries decodeB rest) ≤ 1 := by
            intro c hcc
            have := hcnt c hcc
            rw [countOcc, List.countP_cons] at this
            rw [countOcc]
            omega
          obtain ⟨h1, h2, h3⟩ := ih
            (fs.filter fun p => decide (p.1 ≠ node.curie)) hset hsub2 hpres2 hcnt2
          refine ⟨?_, ?_, ?_⟩
          · rw [processFileBin_ok_mem decodeB set rest hdec ((hset _).mpr hc0)]
            simp only [processFile, hdec, FilterSet.removeGet, hlk]
            rw [h1]
          · intro c hc
            simp only [processFile, hdec, FilterSet.removeGet, hlk] at hc
            exact h2 c hc
          · intro c hcc hnc
            rw [decodedCuries_ok_some decodeB rest hdec] at hnc
            have hne : c ≠ node.curie := fun hh =>
              hnc (hh ▸ List.mem_cons_self _ _)
            have hnr : c ∉ decodedCuries decodeB rest := fun hh =>
              hnc (List.mem_cons_of_mem _ hh)
            simp only [processFile, hdec, FilterSet.removeGet, hlk]
            exact Iff.trans (h3 c hcc hnr) (mem_keys_filterNe hne)
        · have hnotfs : node.curie ∉ FilterSet.keys fs :=
            fun hh => hc0 (hsub _ hh)
          have hlk : FilterSet.lookup node.curie fs = none :=
            lookup_eq_none_iff.mpr hnotfs
          have hpres2 : ∀ c, c ∈ FilterSet.keys fs0 →
              c ∈ decodedCuries decodeB rest → c ∈ FilterSet.keys fs := by
            intro c hcc hcr
            exact hpres c hcc (List.mem_cons_of_mem _ hcr)
          have hcnt2 : ∀ c, c ∈ FilterSet.keys fs0 →
              countOcc c (decodedCuries decodeB rest) ≤ 1 := by
            intro c hcc
            have := hcnt c hcc
            rw [countOcc, List.countP_cons] at this
            rw [countOcc]
            omega
          obtain ⟨h1, h2, h3⟩ := ih fs hset hsub hpres2 hcnt2
          refine ⟨?_, ?_, ?_⟩
          · rw [processFileBin_ok_not_mem decodeB set rest hdec
              (fun hh => hc0 ((hset _).mp hh))]
            simp only [processFile, hdec, FilterSet.removeGet, hlk]
            rw [h1]
          · intro c hc
            simp only [processFile, hdec, FilterSet.removeGet, hlk] at hc
            exact h2 c hc
          · intro c hcc hnc
            rw [decodedCuries_ok_some decodeB rest hdec] at hnc
            have hnr : c ∉ decodedCuries decodeB rest := fun hh =>
              hnc (List.mem_cons_of_mem _ hh)
            simp only [processFile, hdec, FilterSet.removeGet, hlk]
            exact h3 c hcc hnr

end BabelFilter

namespace BabelFilter

theorem runBabelFiles_eq_bin (decodeB : String → Option BabelJson)
    (output_format : Option OutputFormat) (outDir : String)
    (set : List String) (fs0 : FilterSet) :
    ∀ (files : List (String × List Line)) (fs : FilterSet),
    (∀ c, c ∈ set ↔ c ∈ FilterSet.keys fs0) →
    (∀ c, c ∈ FilterSet.keys fs → c ∈ FilterSet.keys fs0) →
    (∀ c, c ∈ FilterSet.keys fs0 → c ∈ allCuries decodeB files →
      c ∈ FilterSet.keys fs) →
    (∀ c, c ∈ FilterSet.keys fs0 → countOcc c (allCuries decodeB files) ≤ 1) →
    (runBabelFiles decodeB output_format outDir fs files).2.map Prod.snd
      = files.map fun f => BabelBin.processFileBin decodeB set f.2 := by
  intro files
  induction files with
  | nil => intro fs _ _ _ _; rfl
  | cons f rest ih =>
    intro fs hset hsub hpres hcnt
    have hpresF : ∀ c, c ∈ FilterSet.keys fs0 →
        c ∈ decodedCuries decodeB f.2 → c ∈ FilterSet.keys fs := by
      intro c hcc hcm
      exact hpres c hcc (by rw [allCuries]; exact List.mem_append_left _ hcm)
    have hcntF : ∀ c, c ∈ FilterSet.keys fs0 →
        countOcc c (decodedCuries decodeB f.2) ≤ 1 := by
      intro c hcc
      have := hcnt c hcc
      rw [allCuries, countOcc, List.countP_append] at this
      rw [countOcc]
      omega
    obtain ⟨h1, h2, h3⟩ :=
      processFile_eq_bin decodeB set fs0 f.2 fs hset hsub hpresF hcntF
    have hpresR : ∀ c, c ∈ FilterSet.keys fs0 →
        c ∈ allCuries decodeB rest →
        c ∈ FilterSet.keys (processFile decodeB fs f.2).fs := by
      intro c hcc hcm
      have hnotF : c ∉ decodedCuries decodeB f.2 := by
        intro hcf
        have hc := hcnt c hcc
        rw [allCuries, countOcc, List.countP_append] at hc
        have hg1 := countOcc_pos_of_mem hcf
        have hg2 := countOcc_pos_of_mem hcm
        rw [countOcc] at hg1 hg2
        omega
      exact (h3 c hcc hnotF).mpr
        (hpres c hcc (by rw [allCuries]; exact List.mem_append_right _ hcm))
    have hcntR : ∀ c, c ∈ FilterSet.keys fs0 →
        countOcc c (allCuries decodeB rest) ≤ 1 := by
      intro c hcc
      have := hcnt c hcc
      rw [allCuries, countOcc, List.countP_append] at this
      rw [countOcc]
      omega
    have hrest := ih (processFile decodeB fs f.2).fs hset h2 hpresR hcntR
    simp only [runBabelFiles, List.map_cons]
    rw [h1, hrest]

/-- C10: when every identifier of the initial filter set occurs as the curie
of at most one successfully decoded line across all input files, the library
version's depleting membership test (`filter_set.remove(..).is_some()`) and
the binary version's non-depleting test (`filter_set.contains(..)`) write
exactly the same lines to every per-file output, given the same initial set
of identifiers. -/
theorem c10_depleting_refines_contains (decodeB : String → Option BabelJson)
    (output_format : Option OutputFormat) (outDir : String)
    (set : List String) (fs0 : FilterSet) (files : List (String × List Line))
    (hset : ∀ c, c ∈ set ↔ c ∈ FilterSet.keys fs0)
    (hcnt : ∀ c, c ∈ FilterSet.keys fs0 → countOcc c (allCuries decodeB files) ≤ 1) :
    (runBabelFiles decodeB output_format outDir fs0 files).2.map Prod.snd
      = files.map fun f => BabelBin.processFileBin decodeB set f.2 :=
  runBabelFiles_eq_bin decodeB output_format outDir set fs0 files fs0 hset
    (fun _ h => h) (fun _ hc _ => hc) hcnt

/-- Concrete Babel decoder for the C10 witness: two input files whose lines
decode to curies `A` (in the filter set) and `B` (not in it). -/
def c10decodeB : String → Option BabelJson := fun s =>
  if s = "b1" then some ⟨"A", [], [], none, none, []⟩
  else if s = "b2" then some ⟨"B", [], [], none, none, []⟩
  else none

/-- Witness for `c10_depleting_refines_contains`: a two-file run in which the
only filter identifier `A` is decoded once; both versions keep exactly the
line `b1`. -/
theorem c10_depleting_refines_contains_witness :
    (runBabelFiles c10decodeB none "out" [("A", ⟨"A", "a", [], none⟩)]
        [("f", [Except.ok "b1"]), ("g", [Except.ok "b2"])]).2.map Prod.snd
      = [("f", [Except.ok "b1"]), ("g", [Except.ok "b2"])].map
          fun f => BabelBin.processFileBin c10decodeB ["A"] f.2 :=
  c10_depleting_refines_contains c10decodeB none "out" ["A"]
    [("A", ⟨"A", "a", [], none⟩)]
    [("f", [Except.ok "b1"]), ("g", [Except.ok "b2"])]
    (fun c => Iff.rfl)
    (by
      intro c hc
      have hcA : c = "A" := by simpa [FilterSet.keys] using hc
      rw [hcA]
      decide)

end BabelFilter
